import Mathlib

/-!
Verification of the ingestion/normalization pipeline of `fetch_papers.py`.

Python strings are modelled as `List Char` (the ASCII fragment relevant to the
program: `str.lower`, `str.strip`, `str.isdigit` are modelled on ASCII
characters, which is what every string manipulated by the program contains).
Python `dict` values appear as insertion-ordered association lists, matching
CPython's ordered-dict semantics.  Fallible code (`int()` raising
`ValueError`) is modelled with `Except`/`Option`.
-/

set_option autoImplicit false

namespace FetchPapers

/-- A Python string, modelled as its list of characters. -/
abbrev Str := List Char

/-- Turn a Lean string literal into the `Str` model. -/
def pystr (s : String) : Str := s.data

/-- Uppercase ASCII letter test (code points 65–90). -/
def isUpperChar (c : Char) : Bool := decide (65 ≤ c.toNat ∧ c.toNat ≤ 90)

/-- ASCII decimal digit test (code points 48–57). -/
def isDigitChar (c : Char) : Bool := decide (48 ≤ c.toNat ∧ c.toNat ≤ 57)

/-- Lower one character, modelling `str.lower` on the ASCII fragment. -/
def lowerChar (c : Char) : Char :=
  if 65 ≤ c.toNat ∧ c.toNat ≤ 90 then Char.ofNat (c.toNat + 32) else c

/-- Models Python `str.lower()` (ASCII fragment). -/
def pyLower (s : Str) : Str := s.map lowerChar

/-- Python whitespace characters stripped by `str.strip()` (ASCII fragment):
space, tab, newline, carriage return, vertical tab, form feed. -/
def isPySpace (c : Char) : Bool :=
  decide (c.toNat = 32 ∨ c.toNat = 9 ∨ c.toNat = 10 ∨ c.toNat = 13 ∨
          c.toNat = 11 ∨ c.toNat = 12)

/-- Models Python `str.strip()` with no argument (ASCII whitespace fragment). -/
def pyStrip (s : Str) : Str :=
  ((s.dropWhile isPySpace).reverse.dropWhile isPySpace).reverse

/-- Truthiness of an optional string, as Python sees it: `None` and the empty
string are falsy. -/
def truthy (o : Option Str) : Bool :=
  match o with
  | some s => decide (s ≠ [])
  | none => false

/-- Underlying string of an optional string, empty when `None`. -/
def getStr (o : Option Str) : Str := o.getD []

/-- The common record schema (`PaperRecord` dataclass of `fetch_papers.py`). -/
structure PaperRecord where
  source : Str
  keyword : Str
  title : Str
  authors : Str
  doi : Str
  publication_date : Str
  journal : Str
  abstract : Str
  deriving DecidableEq, Inhabited, Repr

/-- The identity key computed inside `deduplicate_records`:
`record.doi.lower()` when the DOI is non-empty, otherwise the composite
string `f"title:{record.title.lower().strip()}|date:{record.publication_date}"`. -/
def dedupKey (r : PaperRecord) : Str :=
  let key : Str := if r.doi ≠ [] then pyLower r.doi else []
  if key = [] then
    pystr "title:" ++ pyStrip (pyLower r.title) ++ pystr "|date:" ++ r.publication_date
  else key

/-- The loop of `deduplicate_records`: `seen` models the Python insertion-ordered
dict from key to first record; a record is added only when its key is absent. -/
def dedupLoop (seen : List (Str × PaperRecord)) : List PaperRecord → List (Str × PaperRecord)
  | [] => seen
  | r :: rs =>
    if dedupKey r ∈ seen.map Prod.fst then dedupLoop seen rs
    else dedupLoop (seen ++ [(dedupKey r, r)]) rs

/-- Models `deduplicate_records`: iterate the input, keep the first record per
identity key, return `list(seen.values())` (insertion order). -/
def deduplicate_records (records : List PaperRecord) : List PaperRecord :=
  (dedupLoop [] records).map Prod.snd

/-- Specification-level reformulation of first-write-wins deduplication: keep
the head, then recurse on the tail with every later record of the same
identity key filtered out. -/
def keepFirst : List PaperRecord → List PaperRecord
  | [] => []
  | r :: rs => r :: keepFirst (rs.filter (fun s => decide (dedupKey s ≠ dedupKey r)))
termination_by l => l.length
decreasing_by
  simp only [List.length_cons]
  exact Nat.lt_succ_of_le (List.length_filter_le _ _)

/-- Accumulator form of `keepFirst`, tracking the set of already-seen keys. -/
def keepFirstAcc (ks : List Str) : List PaperRecord → List PaperRecord
  | [] => []
  | r :: rs =>
    if dedupKey r ∈ ks then keepFirstAcc ks rs
    else r :: keepFirstAcc (dedupKey r :: ks) rs

theorem dedupKey_of_doi_ne {r : PaperRecord} (h : r.doi ≠ []) :
    dedupKey r = pyLower r.doi := by
  have hne : pyLower r.doi ≠ [] := by
    simpa [pyLower, List.map_eq_nil_iff] using h
  simp only [dedupKey, if_pos h]
  exact if_neg hne

theorem keepFirstAcc_congr (rs : List PaperRecord) :
    ∀ ks ks' : List Str, (∀ k, k ∈ ks ↔ k ∈ ks') →
      keepFirstAcc ks rs = keepFirstAcc ks' rs := by
  induction rs with
  | nil => intro ks ks' _; rfl
  | cons r rs ih =>
    intro ks ks' h
    simp only [keepFirstAcc]
    by_cases hk : dedupKey r ∈ ks
    · rw [if_pos hk, if_pos ((h _).mp hk), ih ks ks' h]
    · rw [if_neg hk, if_neg (fun hc => hk ((h _).mpr hc))]
      have hcons : ∀ k, k ∈ dedupKey r :: ks ↔ k ∈ dedupKey r :: ks' := by
        intro k; simp [h k]
      rw [ih _ _ hcons]

theorem keepFirstAcc_eq_keepFirst (rs : List PaperRecord) :
    ∀ ks : List Str,
      keepFirstAcc ks rs = keepFirst (rs.filter (fun r => decide (dedupKey r ∉ ks))) := by
  induction rs with
  | nil =>
    intro ks
    rw [keepFirst.eq_def]
    rfl
  | cons r rs ih =>
    intro ks
    by_cases hk : dedupKey r ∈ ks
    · have hd : decide (dedupKey r ∉ ks) = false := by simp [hk]
      simp only [keepFirstAcc, if_pos hk, List.filter_cons, hd, Bool.false_eq_true, if_false]
      exact ih ks
    · have hd : decide (dedupKey r ∉ ks) = true := by simp [hk]
      simp only [keepFirstAcc, if_neg hk, List.filter_cons, hd, if_true]
      rw [keepFirst.eq_def]
      simp only []
      rw [ih (dedupKey r :: ks)]
      congr 1
      rw [List.filter_filter]
      congr 1
      apply List.filter_congr
      intro s _
      simp [List.mem_cons, not_or, Bool.and_comm]

theorem dedupLoop_map_snd (rs : List PaperRecord) :
    ∀ seen : List (Str × PaperRecord),
      (dedupLoop seen rs).map Prod.snd
        = seen.map Prod.snd ++ keepFirstAcc (seen.map Prod.fst) rs := by
  induction rs with
  | nil => intro seen; simp [dedupLoop, keepFirstAcc]
  | cons r rs ih =>
    intro seen
    simp only [dedupLoop, keepFirstAcc]
    by_cases hk : dedupKey r ∈ seen.map Prod.fst
    · rw [if_pos hk, if_pos hk, ih]
    · rw [if_neg hk, if_neg hk, ih]
      simp only [List.map_append, List.map_cons, List.map_nil]
      have hswap : keepFirstAcc (seen.map Prod.fst ++ [dedupKey r]) rs
          = keepFirstAcc (dedupKey r :: seen.map Prod.fst) rs := by
        apply keepFirstAcc_congr
        intro k
        simp only [List.mem_append, List.mem_singleton, List.mem_cons,
          List.not_mem_nil, or_false]
        exact or_comm
      rw [hswap, List.append_assoc]
      rfl

theorem dedup_eq_keepFirst (rs : List PaperRecord) :
    deduplicate_records rs = keepFirst rs := by
  have h1 := dedupLoop_map_snd rs []
  simp only [List.map_nil, List.nil_append] at h1
  have h2 : List.filter (fun r => decide (dedupKey r ∉ ([] : List Str))) rs = rs := by
    simp
  unfold deduplicate_records
  rw [h1, keepFirstAcc_eq_keepFirst, h2]

theorem keepFirst_nil : keepFirst [] = [] := by
  rw [keepFirst.eq_def]

theorem keepFirst_cons (r : PaperRecord) (rs : List PaperRecord) :
    keepFirst (r :: rs)
      = r :: keepFirst (rs.filter (fun s => decide (dedupKey s ≠ dedupKey r))) := by
  rw [keepFirst.eq_def]

theorem dedupLoop_fst_eq (rs : List PaperRecord) :
    ∀ seen : List (Str × PaperRecord),
      (∀ e ∈ seen, e.1 = dedupKey e.2) →
      ∀ e ∈ dedupLoop seen rs, e.1 = dedupKey e.2 := by
  induction rs with
  | nil => intro seen h; exact h
  | cons r rs ih =>
    intro seen h
    simp only [dedupLoop]
    by_cases hk : dedupKey r ∈ seen.map Prod.fst
    · rw [if_pos hk]; exact ih seen h
    · rw [if_neg hk]
      apply ih
      intro e he
      rcases List.mem_append.mp he with h1 | h2
      · exact h e h1
      · simp only [List.mem_singleton] at h2
        subst h2; rfl

theorem dedupLoop_keys_nodup (rs : List PaperRecord) :
    ∀ seen : List (Str × PaperRecord),
      (seen.map Prod.fst).Nodup →
      ((dedupLoop seen rs).map Prod.fst).Nodup := by
  induction rs with
  | nil => intro seen h; exact h
  | cons r rs ih =>
    intro seen h
    simp only [dedupLoop]
    by_cases hk : dedupKey r ∈ seen.map Prod.fst
    · rw [if_pos hk]; exact ih seen h
    · rw [if_neg hk]
      apply ih
      rw [List.map_append]
      exact List.Nodup.append h (List.nodup_singleton _)
        (List.disjoint_singleton.mpr hk)

theorem dedupLoop_length (rs : List PaperRecord) :
    ∀ seen : List (Str × PaperRecord),
      (dedupLoop seen rs).length ≤ seen.length + rs.length := by
  induction rs with
  | nil => intro seen; simp [dedupLoop]
  | cons r rs ih =>
    intro seen
    simp only [dedupLoop, List.length_cons]
    by_cases hk : dedupKey r ∈ seen.map Prod.fst
    · rw [if_pos hk]
      exact le_trans (ih seen) (by omega)
    · rw [if_neg hk]
      have h := ih (seen ++ [(dedupKey r, r)])
      simp only [List.length_append, List.length_singleton] at h
      exact le_trans h (by omega)

theorem dedupLoop_of_nodup (rs : List PaperRecord) :
    ∀ seen : List (Str × PaperRecord),
      (rs.map dedupKey).Nodup →
      (∀ r ∈ rs, dedupKey r ∉ seen.map Prod.fst) →
      dedupLoop seen rs = seen ++ rs.map (fun r => (dedupKey r, r)) := by
  induction rs with
  | nil => intro seen _ _; simp [dedupLoop]
  | cons r rs ih =>
    intro seen hnd hdis
    have hk : dedupKey r ∉ seen.map Prod.fst := hdis r (List.mem_cons_self _ _)
    have hnd' : (∀ x ∈ rs, ¬dedupKey x = dedupKey r) ∧ (rs.map dedupKey).Nodup := by
      simpa using hnd
    simp only [dedupLoop, if_neg hk]
    rw [ih (seen ++ [(dedupKey r, r)]) hnd'.2]
    · simp
    · intro r' hr'
      simp only [List.map_append, List.map_cons, List.map_nil, List.mem_append,
        List.mem_singleton, not_or]
      exact ⟨hdis r' (List.mem_cons_of_mem _ hr'), hnd'.1 r' hr'⟩

theorem dedup_keys_nodup (rs : List PaperRecord) :
    ((deduplicate_records rs).map dedupKey).Nodup := by
  have hfst := dedupLoop_fst_eq rs [] (by simp)
  have hnd := dedupLoop_keys_nodup rs [] (by simp)
  unfold deduplicate_records
  rw [List.map_map]
  have hcongr : (dedupLoop [] rs).map (dedupKey ∘ Prod.snd)
      = (dedupLoop [] rs).map Prod.fst := by
    apply List.map_congr_left
    intro e he
    exact (hfst e he).symm
  rw [hcongr]
  exact hnd

theorem dedup_of_keys_nodup (l : List PaperRecord)
    (h : (l.map dedupKey).Nodup) : deduplicate_records l = l := by
  unfold deduplicate_records
  rw [dedupLoop_of_nodup l [] h (by simp), List.nil_append, List.map_map]
  have hid : (Prod.snd ∘ fun r : PaperRecord => (dedupKey r, r)) = id := rfl
  rw [hid, List.map_id]

/-- C1: `deduplicate_records` keeps, for each identity key, only the first
record encountered with that key (later colliding records are discarded whole,
no field merging) and returns the retained records in first-seen order; in
particular, of two records with the same non-empty DOI only the first is kept. -/
theorem dedup_first_write_wins :
    (∀ rs : List PaperRecord, deduplicate_records rs = keepFirst rs) ∧
    (∀ r₁ r₂ : PaperRecord, r₁.doi ≠ [] → r₁.doi = r₂.doi →
      deduplicate_records [r₁, r₂] = [r₁]) := by
  refine ⟨dedup_eq_keepFirst, ?_⟩
  intro r₁ r₂ h1 h2
  have hkey : dedupKey r₂ = dedupKey r₁ := by
    rw [dedupKey_of_doi_ne h1, dedupKey_of_doi_ne (h2 ▸ h1), h2]
  rw [dedup_eq_keepFirst, keepFirst_cons]
  have hfil : List.filter (fun s => decide (dedupKey s ≠ dedupKey r₁)) [r₂] = [] := by
    simp [hkey]
  rw [hfil, keepFirst_nil]

/-- Sample record with a non-empty DOI; used to instantiate hypotheses. -/
def recA : PaperRecord :=
  ⟨pystr "PubMed", pystr "k", pystr "Title A", [], pystr "10.1/x", pystr "2024", [], []⟩

/-- Second sample record sharing `recA`'s DOI but with a different title. -/
def recB : PaperRecord :=
  ⟨pystr "Crossref", pystr "k", pystr "Title B", [], pystr "10.1/x", pystr "2023", [], []⟩

/-- Witness for C1: on two concrete records with identical DOI and different
titles, deduplication keeps only the first. -/
theorem dedup_first_write_wins_witness :
    deduplicate_records [recA, recB] = [recA] :=
  dedup_first_write_wins.2 recA recB (by decide) (by decide)

/-- C2: deduplication is an idempotent reduction: running it on its own output
is a no-op, the output is never longer than the input, and the identity keys of
the output records are pairwise distinct. -/
theorem dedup_idempotent_reduction :
    ∀ rs : List PaperRecord,
      deduplicate_records (deduplicate_records rs) = deduplicate_records rs ∧
      (deduplicate_records rs).length ≤ rs.length ∧
      ((deduplicate_records rs).map dedupKey).Nodup := by
  intro rs
  refine ⟨dedup_of_keys_nodup _ (dedup_keys_nodup rs), ?_, dedup_keys_nodup rs⟩
  have h := dedupLoop_length rs []
  unfold deduplicate_records
  rw [List.length_map]
  simpa using h

theorem dedupKey_doi_empty (r : PaperRecord) (h : r.doi = []) :
    dedupKey r
      = pystr "title:" ++ pyStrip (pyLower r.title) ++ pystr "|date:" ++ r.publication_date := by
  simp [dedupKey, h]

theorem dedup_pair (r₁ r₂ : PaperRecord) :
    deduplicate_records [r₁, r₂]
      = if dedupKey r₂ = dedupKey r₁ then [r₁] else [r₁, r₂] := by
  rw [dedup_eq_keepFirst, keepFirst_cons]
  by_cases h : dedupKey r₂ = dedupKey r₁
  · rw [if_pos h]
    have hfil : List.filter (fun s => decide (dedupKey s ≠ dedupKey r₁)) [r₂] = [] := by
      simp [h]
    rw [hfil, keepFirst_nil]
  · rw [if_neg h]
    have hfil : List.filter (fun s => decide (dedupKey s ≠ dedupKey r₁)) [r₂] = [r₂] := by
      simp [h]
    rw [hfil, keepFirst_cons, List.filter_nil, keepFirst_nil]

theorem bar_sep_inj :
    ∀ t₁ t₂ x y : Str, '|' ∉ t₁ → '|' ∉ t₂ →
      t₁ ++ '|' :: x = t₂ ++ '|' :: y → t₁ = t₂ ∧ x = y := by
  intro t₁
  induction t₁ with
  | nil =>
    intro t₂ x y _ h2 heq
    cases t₂ with
    | nil =>
      simp only [List.nil_append, List.cons.injEq] at heq
      exact ⟨rfl, heq.2⟩
    | cons b t₂' =>
      exfalso
      simp only [List.nil_append, List.cons_append, List.cons.injEq] at heq
      exact h2 (heq.1 ▸ List.mem_cons_self b t₂')
  | cons a t₁' ih =>
    intro t₂ x y h1 h2 heq
    cases t₂ with
    | nil =>
      exfalso
      simp only [List.cons_append, List.nil_append, List.cons.injEq] at heq
      exact h1 (heq.1 ▸ List.mem_cons_self a t₁')
    | cons b t₂' =>
      simp only [List.cons_append, List.cons.injEq] at heq
      have h1' : '|' ∉ t₁' := fun hm => h1 (List.mem_cons_of_mem a hm)
      have h2' : '|' ∉ t₂' := fun hm => h2 (List.mem_cons_of_mem b hm)
      obtain ⟨he, hx⟩ := ih t₂' x y h1' h2' heq.2
      exact ⟨by rw [heq.1, he], hx⟩

theorem fallback_key_inj {r₁ r₂ : PaperRecord}
    (hd₁ : r₁.doi = []) (hd₂ : r₂.doi = [])
    (hb₁ : '|' ∉ pyStrip (pyLower r₁.title)) (hb₂ : '|' ∉ pyStrip (pyLower r₂.title))
    (hEq : dedupKey r₁ = dedupKey r₂) :
    pyStrip (pyLower r₁.title) = pyStrip (pyLower r₂.title)
      ∧ r₁.publication_date = r₂.publication_date := by
  rw [dedupKey_doi_empty r₁ hd₁, dedupKey_doi_empty r₂ hd₂] at hEq
  simp only [List.append_assoc] at hEq
  have hEq2 := List.append_cancel_left hEq
  have hshape₁ : pystr "|date:" ++ r₁.publication_date
      = '|' :: (pystr "date:" ++ r₁.publication_date) := rfl
  have hshape₂ : pystr "|date:" ++ r₂.publication_date
      = '|' :: (pystr "date:" ++ r₂.publication_date) := rfl
  rw [hshape₁, hshape₂] at hEq2
  obtain ⟨ht, hrest⟩ := bar_sep_inj _ _ _ _ hb₁ hb₂ hEq2
  exact ⟨ht, List.append_cancel_left hrest⟩

/-- Record with empty DOI whose title contains the `|date:` delimiter; its
composite identity key collides with `recFb₂`'s despite different dates. -/
def recFb₁ : PaperRecord :=
  ⟨pystr "PubMed", pystr "k", pystr "a|date:b", [], [], pystr "c", [], []⟩

/-- Record with empty DOI, title `a` and date `b|date:c`; collides with `recFb₁`. -/
def recFb₂ : PaperRecord :=
  ⟨pystr "Crossref", pystr "k", pystr "a", [], [], pystr "b|date:c", [], []⟩

/-- C3 counterexample: two records with empty DOIs and different
`publication_date` strings (`"c"` vs `"b|date:c"`) nonetheless collapse to one,
because the composite key string is not an injective encoding of the
(title, date) pair: the claim "differing publication_date keeps both" fails. -/
theorem dedup_fallback_counterexample :
    recFb₁.doi = [] ∧ recFb₂.doi = [] ∧
    recFb₁.publication_date ≠ recFb₂.publication_date ∧
    deduplicate_records [recFb₁, recFb₂] = [recFb₁] := by
  refine ⟨rfl, rfl, by decide, ?_⟩
  rw [dedup_pair, if_pos (by decide)]

/-- C3 (amended): for two empty-DOI records, collapse happens exactly when the
composite key strings coincide; equal normalized titles plus equal dates always
collapse to the first record, and differing dates keep both records provided
neither normalized title contains the bar character of the `|date:` delimiter. -/
theorem dedup_fallback_identity (r₁ r₂ : PaperRecord)
    (hd₁ : r₁.doi = []) (hd₂ : r₂.doi = []) :
    (deduplicate_records [r₁, r₂]
        = if dedupKey r₂ = dedupKey r₁ then [r₁] else [r₁, r₂]) ∧
    (pyStrip (pyLower r₁.title) = pyStrip (pyLower r₂.title) →
      r₁.publication_date = r₂.publication_date →
      deduplicate_records [r₁, r₂] = [r₁]) ∧
    (r₁.publication_date ≠ r₂.publication_date →
      '|' ∉ pyStrip (pyLower r₁.title) → '|' ∉ pyStrip (pyLower r₂.title) →
      deduplicate_records [r₁, r₂] = [r₁, r₂]) := by
  refine ⟨dedup_pair r₁ r₂, ?_, ?_⟩
  · intro ht hdt
    rw [dedup_pair]
    rw [if_pos (by rw [dedupKey_doi_empty r₁ hd₁, dedupKey_doi_empty r₂ hd₂, ht, hdt])]
  · intro hdt hb₁ hb₂
    rw [dedup_pair]
    rw [if_neg (fun hEq => hdt ((fallback_key_inj hd₂ hd₁ hb₂ hb₁ hEq).2.symm))]

/-- Blank-title record used to discharge the hypotheses of the amended C3. -/
def recFb₃ : PaperRecord :=
  ⟨pystr "OpenAlex", pystr "k2", pystr "  A  ", [], [], pystr "2024-01", [], []⟩

/-- Record agreeing with `recFb₃` on normalized title but not on date. -/
def recFb₄ : PaperRecord :=
  ⟨pystr "PubMed", pystr "k3", pystr "a", [], [], pystr "2024-02", [], []⟩

/-- Witness for the amended C3, instantiated on concrete records: equal
normalized titles with different dates keep both records. -/
theorem dedup_fallback_identity_witness :
    deduplicate_records [recFb₃, recFb₄] = [recFb₃, recFb₄] :=
  (dedup_fallback_identity recFb₃ recFb₄ rfl rfl).2.2 (by decide) (by decide) (by decide)

/-- A record whose DOI is empty, whose title is empty after lowering/stripping,
and whose publication date is empty: all such records share one identity key. -/
def blankKeyed (r : PaperRecord) : Bool :=
  decide (r.doi = []) && decide (pyStrip (pyLower r.title) = []) &&
    decide (r.publication_date = [])

theorem dedupKey_blank {r : PaperRecord} (h1 : r.doi = [])
    (h2 : pyStrip (pyLower r.title) = []) (h3 : r.publication_date = []) :
    dedupKey r = pystr "title:|date:" := by
  rw [dedupKey_doi_empty r h1, h2, h3]
  decide

theorem filter_const_key_le_one {α β : Type} (f : α → β) (p : α → Bool) (k : β) :
    ∀ l : List α, (l.map f).Nodup → (∀ x, p x = true → f x = k) →
      (l.filter p).length ≤ 1 := by
  intro l
  induction l with
  | nil => intro _ _; simp
  | cons a l ih =>
    intro hnd hp
    have hnd' : (∀ x ∈ l, ¬f x = f a) ∧ (l.map f).Nodup := by simpa using hnd
    by_cases hpa : p a = true
    · rw [List.filter_cons_of_pos hpa]
      have hfil : l.filter p = [] := by
        rw [List.filter_eq_nil_iff]
        intro x hx hpx
        exact hnd'.1 x hx (by rw [hp x hpx, hp a hpa])
      rw [hfil]
      simp
    · rw [List.filter_cons_of_neg hpa]
      exact ih hnd'.2 hp

/-- C10 (implicit): every record with empty DOI, blank normalized title and
empty publication date gets the constant identity key `title:|date:`
(independently of source, keyword, authors, journal, abstract), so at most one
such record survives deduplication. -/
theorem blank_records_share_key :
    (∀ r : PaperRecord, r.doi = [] → pyStrip (pyLower r.title) = [] →
      r.publication_date = [] → dedupKey r = pystr "title:|date:") ∧
    (∀ rs : List PaperRecord,
      ((deduplicate_records rs).filter blankKeyed).length ≤ 1) := by
  constructor
  · intro r h1 h2 h3
    exact dedupKey_blank h1 h2 h3
  · intro rs
    apply filter_const_key_le_one dedupKey blankKeyed (pystr "title:|date:")
      (deduplicate_records rs) (dedup_keys_nodup rs)
    intro x hx
    have h := by exact hx
    simp only [blankKeyed, Bool.and_eq_true, decide_eq_true_eq] at h
    exact dedupKey_blank h.1.1 h.1.2 h.2

/-- Fully blank-keyed record (whitespace-only title) from one source. -/
def recBlank₁ : PaperRecord :=
  ⟨pystr "OpenAlex", pystr "kw1", pystr "  ", pystr "X; Y", [], [], pystr "J1", pystr "abs1"⟩

/-- Fully blank-keyed record with entirely different non-key fields. -/
def recBlank₂ : PaperRecord :=
  ⟨pystr "Crossref", pystr "kw2", [], pystr "Z", [], [], pystr "J2", pystr "abs2"⟩

/-- Witness for C10: a concrete blank record gets the constant key, and a list
of two distinct blank records retains at most one of them. -/
theorem blank_records_share_key_witness :
    dedupKey recBlank₁ = pystr "title:|date:" ∧
    ((deduplicate_records [recBlank₁, recBlank₂]).filter blankKeyed).length ≤ 1 :=
  ⟨blank_records_share_key.1 recBlank₁ rfl (by decide) rfl,
   blank_records_share_key.2 [recBlank₁, recBlank₂]⟩

theorem char_toNat_ofNat_of_lt {n : Nat} (h : n < 55296) :
    (Char.ofNat n).toNat = n := by
  simp [Char.ofNat, Nat.isValidChar, h, Char.ofNatAux, Char.toNat, UInt32.toNat,
    BitVec.toNat_ofNatLt]

theorem lowerChar_not_upper (c : Char) : isUpperChar (lowerChar c) = false := by
  unfold lowerChar isUpperChar
  by_cases h : 65 ≤ c.toNat ∧ c.toNat ≤ 90
  · rw [if_pos h]
    have hv : (Char.ofNat (c.toNat + 32)).toNat = c.toNat + 32 :=
      char_toNat_ofNat_of_lt (by omega)
    simp only [hv, decide_eq_false_iff_not]
    omega
  · rw [if_neg h]
    simpa using h

theorem not_upper_of_mem_pyLower {c : Char} {s : Str} (h : c ∈ pyLower s) :
    isUpperChar c = false := by
  unfold pyLower at h
  obtain ⟨a, _, ha⟩ := List.mem_map.mp h
  rw [← ha]
  exact lowerChar_not_upper a

theorem mem_of_mem_pyStrip {c : Char} {s : Str} (h : c ∈ pyStrip s) : c ∈ s := by
  unfold pyStrip at h
  rw [List.mem_reverse] at h
  have h2 := List.Sublist.mem h (List.dropWhile_sublist _)
  rw [List.mem_reverse] at h2
  exact List.Sublist.mem h2 (List.dropWhile_sublist _)

/-- PubMed DOI extraction (`fetch_papers.py` lines 134-135): the text of the
typed `ArticleId` element, stripped; empty when the element is missing or its
text is `None`/empty.  Note: neither lowercased nor URL-prefix-stripped. -/
def pubmedDoi (t : Option Str) : Str :=
  if truthy t then pyStrip (getStr t) else []

/-- Crossref DOI extraction (line 214): `(item.get("DOI") or "").lower().strip()`. -/
def crossrefDoi (d : Option Str) : Str :=
  pyStrip (pyLower (if truthy d then getStr d else []))

/-- Fueled loop of `str.replace(old, "")`: scan left to right, remove each
non-overlapping occurrence of `pat`.  One fuel unit per examined position;
`removeAll` supplies enough fuel for the whole string. -/
def removeAllAux (pat : Str) : Nat → Str → Str
  | _, [] => []
  | 0, s => s
  | fuel + 1, c :: cs =>
    if pat ≠ [] ∧ pat.isPrefixOf (c :: cs) then
      removeAllAux pat fuel (List.drop pat.length (c :: cs))
    else c :: removeAllAux pat fuel cs

/-- Models Python `s.replace(pat, "")` for a non-empty `pat`. -/
def removeAll (pat s : Str) : Str := removeAllAux pat s.length s

/-- OpenAlex DOI extraction (line 285):
`(item.get("ids", {}).get("doi") or "").replace("https://doi.org/", "").strip()`. -/
def openalexDoi (d : Option Str) : Str :=
  pyStrip (removeAll (pystr "https://doi.org/") (if truthy d then getStr d else []))

/-- C4 counterexample: the PubMed adapter does not lowercase DOIs — the DOI
text `10.1/X` is emitted verbatim, which differs from its lowercase form, so
"every adapter normalizes the doi to lowercase" is false. -/
theorem adapter_doi_counterexample :
    pubmedDoi (some (pystr "10.1/X")) = pystr "10.1/X" ∧
    pystr "10.1/X" ≠ pyLower (pystr "10.1/X") := by
  constructor
  · decide
  · decide

/-- C4 (amended): a missing DOI yields the empty string in all three adapters;
the Crossref adapter lowercases (its DOI never contains an uppercase ASCII
letter) but does not strip URL prefixes; the OpenAlex adapter strips the
`https://doi.org/` prefix but does not lowercase; the PubMed adapter only
strips surrounding whitespace. -/
theorem adapter_doi_normalization :
    pubmedDoi none = [] ∧ crossrefDoi none = [] ∧ openalexDoi none = [] ∧
    (∀ d : Str, (crossrefDoi (some d)).all (fun c => !isUpperChar c) = true) ∧
    openalexDoi (some (pystr "https://doi.org/10.1/ABC")) = pystr "10.1/ABC" ∧
    crossrefDoi (some (pystr "https://doi.org/10.1/X")) = pystr "https://doi.org/10.1/x" ∧
    pubmedDoi (some (pystr " 10.1/ABC ")) = pystr "10.1/ABC" := by
  refine ⟨rfl, rfl, rfl, ?_, by decide, by decide, by decide⟩
  intro d
  rw [List.all_eq_true]
  intro c hc
  have hmem := mem_of_mem_pyStrip hc
  by_cases hd : truthy (some d) = true
  · rw [if_pos hd] at hmem
    simp [not_upper_of_mem_pyLower hmem]
  · rw [if_neg hd] at hmem
    simp [pyLower] at hmem

/-- Scan for the first `>` in the remainder of a tag; yields the characters
after it.  Helper for the regex `<[^>]+>` of `clean_html`. -/
def skipToGt : Str → Option Str
  | [] => none
  | c :: cs => if c = '>' then some cs else skipToGt cs

/-- Given the characters after a `<`, find the end of a `<[^>]+>` match: at
least one non-`>` character followed by `>`; yields the remainder. -/
def findTagEnd : Str → Option Str
  | [] => none
  | c :: cs => if c = '>' then none else skipToGt cs

/-- Fueled scan of `re.sub(r"<[^>]+>", "", value)`: at each position, if a tag
match starts here, drop it and resume after it, else keep the character. -/
def stripTagsAux : Nat → Str → Str
  | _, [] => []
  | 0, s => s
  | fuel + 1, c :: cs =>
    if c = '<' then
      match findTagEnd cs with
      | some rest => stripTagsAux fuel rest
      | none => c :: stripTagsAux fuel cs
    else c :: stripTagsAux fuel cs

/-- Models `re.sub(r"<[^>]+>", "", value)` (leftmost, non-overlapping). -/
def stripTags (s : Str) : Str := stripTagsAux s.length s

/-- Models `text.replace("\n", " ")`: a single-character pattern replacement
is a character-wise map. -/
def newlinesToSpaces (s : Str) : Str :=
  s.map (fun c => if c = '\n' then ' ' else c)

/-- Models `clean_html` (lines 321-326): empty in, empty out; otherwise strip
tag markup, replace newlines by spaces, strip surrounding whitespace. -/
def clean_html (value : Str) : Str :=
  if value = [] then []
  else pyStrip (newlinesToSpaces (stripTags value))

/-- Models the PubMed abstract assembly (lines 111-116): strip each
`AbstractText` node text, drop falsy (empty) ones, join with `"\n"`. -/
def pubmedAbstract (texts : List Str) : Str :=
  List.intercalate (pystr "\n") ((texts.map pyStrip).filter (fun t => decide (t ≠ [])))

/-- Does the string contain a newline character? -/
def hasNewline (s : Str) : Bool := s.any (fun c => decide (c = '\n'))

/-- C5 counterexample: the PubMed adapter joins multi-part abstracts with the
newline character, so an emitted abstract can contain a newline, contradicting
"no abstract string contains a newline". -/
theorem adapter_abstract_counterexample :
    pubmedAbstract [pystr "Background.", pystr "Methods."]
      = pystr "Background.\nMethods." ∧
    hasNewline (pubmedAbstract [pystr "Background.", pystr "Methods."]) = true := by
  constructor
  · decide
  · decide

/-- C5 (amended): the Crossref abstract (`clean_html` output) never contains a
newline, but the PubMed abstract is the newline-join of the nonempty stripped
section texts, so any two nonempty sections put a newline into the abstract. -/
theorem adapter_abstract_newlines :
    (∀ s : Str, hasNewline (clean_html s) = false) ∧
    (∀ t₁ t₂ : Str, pyStrip t₁ ≠ [] → pyStrip t₂ ≠ [] →
      hasNewline (pubmedAbstract [t₁, t₂]) = true) := by
  constructor
  · intro s
    unfold clean_html
    by_cases hs : s = []
    · rw [if_pos hs]; rfl
    · rw [if_neg hs]
      rw [Bool.eq_false_iff]
      intro hany
      obtain ⟨c, hc, hcn⟩ := List.any_eq_true.mp hany
      have hmem := mem_of_mem_pyStrip hc
      obtain ⟨a, _, ha⟩ := List.mem_map.mp hmem
      simp only [decide_eq_true_eq] at hcn
      subst hcn
      by_cases han : a = '\n'
      · rw [if_pos han] at ha
        exact absurd ha (by decide)
      · rw [if_neg han] at ha
        exact han ha
  · intro t₁ t₂ h₁ h₂
    unfold pubmedAbstract
    have hfil : ((([t₁, t₂].map pyStrip).filter (fun t => decide (t ≠ []))))
        = [pyStrip t₁, pyStrip t₂] := by
      simp [h₁, h₂]
    rw [hfil]
    have hjoin : List.intercalate (pystr "\n") [pyStrip t₁, pyStrip t₂]
        = pyStrip t₁ ++ '\n' :: (pyStrip t₂ ++ []) := by
      simp [List.intercalate, List.intersperse]
      rfl
    rw [hjoin]
    apply List.any_eq_true.mpr
    exact ⟨'\n', List.mem_append_right _ (List.mem_cons_self _ _), by decide⟩

/-- Witness for the amended C5: two concrete nonempty abstract sections yield
a newline-containing PubMed abstract, and `clean_html` output stays
newline-free on a concrete markup input. -/
theorem adapter_abstract_newlines_witness :
    hasNewline (pubmedAbstract [pystr "A", pystr "B"]) = true :=
  adapter_abstract_newlines.2 (pystr "A") (pystr "B") (by decide) (by decide)

/-- Join a list of strings with a single space (Python `" ".join`). -/
def spaceJoin (ws : List Str) : Str := List.intercalate [' '] ws

/-- Per-author name resolution of the PubMed adapter (lines 118-131):
collective name if truthy (stripped); else, when the fore or last name is
truthy, the space-join of the truthy ones among (fore, last); else, when
initials and last name are both truthy, `f"{initials} {last_name}"`; else no
author is appended (`none`). -/
def resolveAuthor (collective lastName foreName initials : Option Str) : Option Str :=
  if truthy collective then some (pyStrip (getStr collective))
  else if truthy foreName ∨ truthy lastName then
    some (spaceJoin ((if truthy foreName then [getStr foreName] else []) ++
                     (if truthy lastName then [getStr lastName] else [])))
  else if truthy initials ∧ truthy lastName then
    some (getStr initials ++ ' ' :: getStr lastName)
  else none

/-- C8 counterexample: an author entry with initials `JD` and last name
`Smith` but no fore name resolves to just `Smith`, not to the claimed
initials+family form `JD Smith` — the initials branch is unreachable because
a truthy last name already takes the given/family branch. -/
theorem author_priority_counterexample :
    resolveAuthor none (some (pystr "Smith")) none (some (pystr "JD"))
      = some (pystr "Smith") ∧
    some (pystr "Smith") ≠ some (pystr "JD" ++ ' ' :: pystr "Smith") := by
  constructor
  · decide
  · decide

/-- C8 (amended): the resolved author never depends on the initials field (the
initials+family branch is dead code), and an entry with a truthy last name but
no collective/fore name resolves to the last name alone. -/
theorem author_resolution :
    (∀ c l f i₁ i₂ : Option Str, resolveAuthor c l f i₁ = resolveAuthor c l f i₂) ∧
    (∀ l i : Str, l ≠ [] →
      resolveAuthor none (some l) none (some i) = some l) := by
  constructor
  · intro c l f i₁ i₂
    unfold resolveAuthor
    by_cases hc : truthy c = true
    · simp [hc]
    · by_cases hfl : truthy f = true ∨ truthy l = true
      · simp [hc, hfl]
      · have hl : truthy l = false := by
          rcases Bool.eq_false_or_eq_true (truthy l) with h | h
          · exact absurd (Or.inr h) hfl
          · exact h
        simp [hc, hfl, hl]
  · intro l i hl
    have hlt : truthy (some l) = true := by simpa [truthy] using hl
    unfold resolveAuthor
    rw [if_neg (by simp [truthy]), if_pos (Or.inr hlt)]
    simp [truthy, hl, spaceJoin, List.intercalate, List.intersperse, getStr]

/-- Witness for the amended C8: a concrete last-name-only entry (initials
present) resolves to the family name alone. -/
theorem author_resolution_witness :
    resolveAuthor none (some (pystr "Doe")) none (some (pystr "AB"))
      = some (pystr "Doe") :=
  author_resolution.2 (pystr "Doe") (pystr "AB") (by decide)

/-- Decimal digit character for `n` (used with `n ≤ 9`). -/
def digitChar (n : Nat) : Char :=
  match n with
  | 0 => '0' | 1 => '1' | 2 => '2' | 3 => '3' | 4 => '4'
  | 5 => '5' | 6 => '6' | 7 => '7' | 8 => '8' | _ => '9'

/-- Fueled decimal rendering of a natural number, most significant digit
first; `natToDigits` supplies sufficient fuel. -/
def natToDigitsAux : Nat → Nat → Str
  | 0, _ => []
  | fuel + 1, n =>
    if n < 10 then [digitChar n]
    else natToDigitsAux fuel (n / 10) ++ [digitChar (n % 10)]

/-- Decimal digit string of a natural number (Python rendering of a
non-negative int). -/
def natToDigits (n : Nat) : Str := natToDigitsAux (n + 1) n

/-- Models the f-string field `{n:02d}` for a non-negative `n`: zero-pad to
width two, wider numbers keep all their digits. -/
def formatNat2 (n : Nat) : Str :=
  if n < 10 then ['0', digitChar n] else natToDigits n

/-- Models Python `str.isdigit()` on the ASCII fragment: non-empty and all
decimal digits. -/
def pyIsDigit (s : Str) : Bool := decide (s ≠ []) && s.all isDigitChar

/-- Numeric value of a decimal digit string. -/
def digitsToNat (s : Str) : Nat := s.foldl (fun acc c => acc * 10 + (c.toNat - 48)) 0

/-- Tail of a Python decimal numeric literal after its first digit: digits,
with single underscores allowed between digits (the `1_000` style). -/
def numTail : Str → Bool
  | [] => true
  | c :: rest =>
    if c = '_' then
      match rest with
      | [] => false
      | c2 :: rest2 => isDigitChar c2 && numTail rest2
    else isDigitChar c && numTail rest

/-- A Python decimal numeric literal: a digit, then digits with single
underscores allowed between digits. -/
def numLiteral (s : Str) : Bool :=
  match s with
  | [] => false
  | c :: rest => isDigitChar c && numTail rest

/-- Remove the underscores of a numeric literal. -/
def stripUnderscores (s : Str) : Str := s.filter (fun c => decide (c ≠ '_'))

/-- Core of `int()` on an already-stripped string: an optional single sign
directly followed by a decimal literal; anything else raises (`none`). -/
def pyIntCore (t : Str) : Option Int :=
  if t.take 1 = pystr "+" then
    if numLiteral (t.drop 1) then
      some (Int.ofNat (digitsToNat (stripUnderscores (t.drop 1))))
    else none
  else if t.take 1 = pystr "-" then
    if numLiteral (t.drop 1) then
      some (-(Int.ofNat (digitsToNat (stripUnderscores (t.drop 1)))))
    else none
  else if numLiteral t then some (Int.ofNat (digitsToNat (stripUnderscores t)))
  else none

/-- Models Python `int(s)` in base 10 (ASCII fragment): surrounding whitespace
is stripped, then an optional sign and a decimal literal (underscores between
digits allowed); anything else raises `ValueError`, modelled as `none`.  In
particular `int("-5")` succeeds with `-5`. -/
def pyIntOfStr (s : Str) : Option Int := pyIntCore (pyStrip s)

/-- Models the f-string field `{n:02d}` for an arbitrary integer: zero-pad to
width two; a negative number renders as the minus sign followed by its digits
(the sign counts toward the width, so width two never pads a negative). -/
def formatInt2 (n : Int) : Str :=
  if n < 0 then '-' :: natToDigits n.natAbs else formatNat2 n.toNat

/-- The C-locale month abbreviations accepted (case-insensitively) by
`datetime.strptime(_, "%b")`. -/
def monthAbbrevs : List Str :=
  [pystr "jan", pystr "feb", pystr "mar", pystr "apr", pystr "may", pystr "jun",
   pystr "jul", pystr "aug", pystr "sep", pystr "oct", pystr "nov", pystr "dec"]

/-- Month-token conversion of `extract_pubmed_date` (lines 167-172): a truthy
non-digit month has its first three characters matched case-insensitively
against the month abbreviations; a hit becomes the zero-padded month number,
a miss (`ValueError` from `strptime`) sets the month to `None`. -/
def convertMonth (month : Option Str) : Option Str :=
  if truthy month && !pyIsDigit (getStr month) then
    match monthAbbrevs.findIdx? (fun a => decide (a = pyLower ((getStr month).take 3))) with
    | some i => some (formatNat2 (i + 1))
    | none => none
  else month

/-- The year/month/day combination chain of `extract_pubmed_date`
(lines 173-179), for an already-converted month.  `.error ()` models an
uncaught `ValueError` raised by `int()` on a part it cannot parse (only the
`strptime` call is inside try/except). -/
def assembleDateParts (year month day : Option Str) : Except Unit Str :=
  if truthy year && truthy month && truthy day then
    match pyIntOfStr (getStr month), pyIntOfStr (getStr day) with
    | some m, some d => .ok (getStr year ++ '-' :: formatInt2 m ++ '-' :: formatInt2 d)
    | _, _ => .error ()
  else if truthy year && truthy month then
    match pyIntOfStr (getStr month) with
    | some m => .ok (getStr year ++ '-' :: formatInt2 m)
    | none => .error ()
  else if truthy year then .ok (getStr year)
  else .ok []

/-- The date-assembly normalizer of `extract_pubmed_date` (lines 163-179), as
a function of the optional Year/Month/Day element texts. -/
def assemblePubmedDate (year month day : Option Str) : Except Unit Str :=
  assembleDateParts year (convertMonth month) day

/-- Is `s` one of the exact shapes `YYYY-MM-DD`, `YYYY-MM`, `YYYY`, or empty
(four-digit year, two-digit month and day)? -/
def fourGranularity (s : Str) : Bool :=
  decide (s = []) ||
  (decide (s.length = 4) && s.all isDigitChar) ||
  (decide (s.length = 7) && (s.take 4).all isDigitChar &&
    decide (s.get? 4 = some '-') && (s.drop 5).all isDigitChar) ||
  (decide (s.length = 10) && (s.take 4).all isDigitChar &&
    decide (s.get? 4 = some '-') && ((s.drop 5).take 2).all isDigitChar &&
    decide (s.get? 7 = some '-') && (s.drop 8).all isDigitChar)

/-- Is `dd` the `{n:02d}` rendering of some integer: all digits and at least
two of them, or a minus sign followed by at least one digit? -/
def intField (dd : Str) : Bool :=
  (decide (2 ≤ dd.length) && dd.all isDigitChar) ||
  (decide (dd.take 1 = pystr "-") && decide (dd.drop 1 ≠ []) && (dd.drop 1).all isDigitChar)

theorem digitChar_digit (n : Nat) : isDigitChar (digitChar n) = true := by
  unfold digitChar
  split <;> decide

theorem natToDigitsAux_all_digit :
    ∀ fuel n : Nat, (natToDigitsAux fuel n).all isDigitChar = true := by
  intro fuel
  induction fuel with
  | zero => intro n; rfl
  | succ fuel ih =>
    intro n
    unfold natToDigitsAux
    by_cases h : n < 10
    · rw [if_pos h]
      simp [digitChar_digit]
    · rw [if_neg h]
      rw [List.all_append]
      simp [ih, digitChar_digit]

theorem natToDigitsAux_length_pos (fuel n : Nat) (h : 1 ≤ fuel) :
    1 ≤ (natToDigitsAux fuel n).length := by
  obtain ⟨fuel', rfl⟩ : ∃ f, fuel = f + 1 := ⟨fuel - 1, by omega⟩
  unfold natToDigitsAux
  by_cases hn : n < 10
  · rw [if_pos hn]; simp
  · rw [if_neg hn]; simp

theorem formatNat2_all_digit (n : Nat) : (formatNat2 n).all isDigitChar = true := by
  unfold formatNat2
  by_cases h : n < 10
  · rw [if_pos h]
    simp only [List.all_cons, List.all_nil, digitChar_digit, Bool.and_true]
    decide
  · rw [if_neg h]; exact natToDigitsAux_all_digit _ _

theorem formatNat2_length (n : Nat) : 2 ≤ (formatNat2 n).length := by
  unfold formatNat2
  by_cases h : n < 10
  · rw [if_pos h]; simp
  · rw [if_neg h]
    unfold natToDigits natToDigitsAux
    rw [if_neg h, List.length_append]
    have := natToDigitsAux_length_pos n (n / 10) (by omega)
    simp only [List.length_singleton]
    omega

theorem bool_and_elim {a b : Bool} (h : (a && b) = true) : a = true ∧ b = true := by
  simp only [Bool.and_eq_true] at h
  exact h

theorem bool_and_intro {a b : Bool} (h1 : a = true) (h2 : b = true) : (a && b) = true := by
  rw [h1, h2]
  rfl

theorem natToDigits_ne_nil (n : Nat) : natToDigits n ≠ [] := by
  intro hEq
  have hlen : 1 ≤ (natToDigits n).length := natToDigitsAux_length_pos (n + 1) n (by omega)
  rw [hEq] at hlen
  simp at hlen

theorem not_space_of_digit {c : Char} (h : isDigitChar c = true) : isPySpace c = false := by
  simp only [isDigitChar, decide_eq_true_eq] at h
  simp only [isPySpace, decide_eq_false_iff_not]
  omega

theorem dropWhile_space_of_digits (l : Str) (h : l.all isDigitChar = true) :
    l.dropWhile isPySpace = l := by
  cases l with
  | nil => rfl
  | cons c cs =>
    have hc : isDigitChar c = true := by
      rw [List.all_cons] at h
      exact (bool_and_elim h).1
    rw [List.dropWhile_cons, if_neg (by simp [not_space_of_digit hc])]

theorem pyStrip_of_digits {t : Str} (h : t.all isDigitChar = true) : pyStrip t = t := by
  unfold pyStrip
  have hrev : t.reverse.all isDigitChar = true := by
    rw [List.all_eq_true] at h ⊢
    intro c hc
    exact h c (List.mem_reverse.mp hc)
  rw [dropWhile_space_of_digits t h, dropWhile_space_of_digits t.reverse hrev,
    List.reverse_reverse]

theorem numTail_of_digits :
    ∀ l : Str, l.all isDigitChar = true → numTail l = true := by
  intro l
  induction l with
  | nil => intro _; rfl
  | cons c cs ih =>
    intro h
    rw [List.all_cons] at h
    obtain ⟨hc, hcs⟩ := bool_and_elim h
    have hne : ¬(c = '_') := by
      intro hEq
      rw [hEq] at hc
      exact absurd hc (by decide)
    unfold numTail
    rw [if_neg hne]
    simp [hc, ih hcs]

theorem numLiteral_of_digits {t : Str} (hne : t ≠ []) (h : t.all isDigitChar = true) :
    numLiteral t = true := by
  cases t with
  | nil => exact absurd rfl hne
  | cons c cs =>
    rw [List.all_cons] at h
    obtain ⟨hc, hcs⟩ := bool_and_elim h
    unfold numLiteral
    simp [hc, numTail_of_digits cs hcs]

theorem stripUnderscores_of_digits {t : Str} (h : t.all isDigitChar = true) :
    stripUnderscores t = t := by
  unfold stripUnderscores
  rw [List.filter_eq_self]
  intro a ha
  have hd : isDigitChar a = true := List.all_eq_true.mp h a ha
  simp only [decide_eq_true_eq]
  intro hEq
  rw [hEq] at hd
  exact absurd hd (by decide)

theorem pyIntCore_of_digits {t : Str} (hne : t ≠ []) (h : t.all isDigitChar = true) :
    pyIntCore t = some (Int.ofNat (digitsToNat t)) := by
  cases t with
  | nil => exact absurd rfl hne
  | cons c cs =>
    have hc : isDigitChar c = true := by
      have h2 := h
      rw [List.all_cons] at h2
      exact (bool_and_elim h2).1
    have hplus : ¬((c :: cs).take 1 = pystr "+") := by
      intro hEq
      have hcEq : c = '+' := (List.cons.injEq _ _ _ _).mp (show ([c] : Str) = ['+'] from hEq) |>.1
      rw [hcEq] at hc
      exact absurd hc (by decide)
    have hminus : ¬((c :: cs).take 1 = pystr "-") := by
      intro hEq
      have hcEq : c = '-' := (List.cons.injEq _ _ _ _).mp (show ([c] : Str) = ['-'] from hEq) |>.1
      rw [hcEq] at hc
      exact absurd hc (by decide)
    unfold pyIntCore
    rw [if_neg hplus, if_neg hminus, if_pos (numLiteral_of_digits (by simp) h),
      stripUnderscores_of_digits h]

theorem pyIntOfStr_of_digits {t : Str} (h : pyIsDigit t = true) :
    pyIntOfStr t = some (Int.ofNat (digitsToNat t)) := by
  unfold pyIsDigit at h
  obtain ⟨h1, h2⟩ := bool_and_elim h
  rw [decide_eq_true_eq] at h1
  unfold pyIntOfStr
  rw [pyStrip_of_digits h2]
  exact pyIntCore_of_digits h1 h2

theorem formatInt2_ofNat (n : Nat) : formatInt2 (Int.ofNat n) = formatNat2 n := by
  unfold formatInt2
  have hneg : ¬(Int.ofNat n < 0) := not_lt.mpr (Int.ofNat_nonneg n)
  rw [if_neg hneg]
  rfl

theorem formatInt2_parsed_digits {t : Str} (hdig : pyIsDigit t = true) {m : Int}
    (hm : pyIntOfStr t = some m) :
    2 ≤ (formatInt2 m).length ∧ (formatInt2 m).all isDigitChar = true := by
  rw [pyIntOfStr_of_digits hdig] at hm
  have hmv : Int.ofNat (digitsToNat t) = m := by simpa using hm
  rw [← hmv, formatInt2_ofNat]
  exact ⟨formatNat2_length _, formatNat2_all_digit _⟩

theorem intField_formatInt2 (d : Int) : intField (formatInt2 d) = true := by
  unfold formatInt2
  by_cases hd : d < 0
  · rw [if_pos hd]
    have hb : (decide (('-' :: natToDigits d.natAbs).take 1 = pystr "-") &&
        decide (('-' :: natToDigits d.natAbs).drop 1 ≠ []) &&
        (('-' :: natToDigits d.natAbs).drop 1).all isDigitChar) = true :=
      bool_and_intro (bool_and_intro rfl (decide_eq_true (natToDigits_ne_nil d.natAbs)))
        (natToDigitsAux_all_digit _ _)
    unfold intField
    rw [hb, Bool.or_true]
  · rw [if_neg hd]
    have hb : (decide (2 ≤ (formatNat2 d.toNat).length) &&
        (formatNat2 d.toNat).all isDigitChar) = true :=
      bool_and_intro (decide_eq_true (formatNat2_length _)) (formatNat2_all_digit _)
    unfold intField
    rw [hb, Bool.true_or]

theorem convertMonth_digit (month : Option Str)
    (h : truthy (convertMonth month) = true) :
    pyIsDigit (getStr (convertMonth month)) = true := by
  unfold convertMonth at h ⊢
  by_cases hc : (truthy month && !pyIsDigit (getStr month)) = true
  · rw [if_pos hc] at h ⊢
    cases hf : monthAbbrevs.findIdx? (fun a => decide (a = pyLower ((getStr month).take 3))) with
    | none =>
      rw [hf] at h
      exact absurd h (by decide)
    | some i =>
      unfold pyIsDigit
      refine bool_and_intro ?_ (formatNat2_all_digit _)
      apply decide_eq_true
      intro hEq
      have hEq2 : formatNat2 (i + 1) = [] := hEq
      have hlen := formatNat2_length (i + 1)
      rw [hEq2] at hlen
      simp at hlen
  · rw [if_neg hc] at h ⊢
    have hnb : ¬((!pyIsDigit (getStr month)) = true) :=
      fun hb => hc (bool_and_intro h hb)
    simpa using hnb

/-- C6 counterexample: with year `2024` and the digit month token `999`,
`extract_pubmed_date` returns `2024-999`, which is none of the shapes
YYYY-MM-DD, YYYY-MM, YYYY, or empty — the month field gets three digits. -/
theorem pubmed_date_counterexample :
    assemblePubmedDate (some (pystr "2024")) (some (pystr "999")) none
      = .ok (pystr "2024-999") ∧
    fourGranularity (pystr "2024-999") = false := by
  constructor
  · rfl
  · decide

/-- C6 (amended): an unparseable non-numeric month is treated as absent and
yields the year-only result without raising, whatever the day; a month-name
token becomes its zero-padded two-digit number; every string the function
returns is empty, the year text verbatim, or the year followed by a dash and
an all-digit month field of at least two digits, optionally followed by a dash
and a day field that is the `{:02d}` rendering of the parsed day integer —
all digits (at least two) or a minus sign followed by its digits.  A signed
day succeeds: day `-5` yields `2024-03--5`; a day `int()` cannot parse, such
as `day`, raises `ValueError` instead of returning, since only the `strptime`
call is inside try/except. -/
theorem pubmed_date_assembly :
    (∀ (year day : Option Str) (m : Str), m ≠ [] → pyIsDigit m = false →
      monthAbbrevs.findIdx? (fun a => decide (a = pyLower (m.take 3))) = none →
      assemblePubmedDate year (some m) day
        = .ok (if truthy year then getStr year else [])) ∧
    (assemblePubmedDate (some (pystr "2024")) (some (pystr "March")) (some (pystr "5"))
      = .ok (pystr "2024-03-05")) ∧
    (assemblePubmedDate (some (pystr "2024")) (some (pystr "3")) (some (pystr "-5"))
      = .ok (pystr "2024-03--5")) ∧
    (assemblePubmedDate (some (pystr "2024")) (some (pystr "3")) (some (pystr "day"))
      = .error ()) ∧
    (∀ (year month day : Option Str) (s : Str),
      assemblePubmedDate year month day = .ok s →
      s = [] ∨ s = getStr year ∨
      (∃ mm : Str, 2 ≤ mm.length ∧ mm.all isDigitChar = true ∧
        s = getStr year ++ '-' :: mm) ∨
      (∃ mm dd : Str, 2 ≤ mm.length ∧ mm.all isDigitChar = true ∧
        intField dd = true ∧
        s = getStr year ++ '-' :: mm ++ '-' :: dd)) := by
  refine ⟨?_, by rfl, by rfl, by rfl, ?_⟩
  · intro year day m hm hdig hfind
    have hconv : convertMonth (some m) = none := by
      unfold convertMonth
      rw [if_pos (by simp [truthy, hm, hdig, getStr])]
      simp only [getStr, Option.getD]
      rw [hfind]
    unfold assemblePubmedDate
    rw [hconv]
    unfold assembleDateParts
    cases year with
    | none => rfl
    | some y =>
      by_cases hy : y = []
      · subst hy; rfl
      · simp [truthy, hy]
  · intro year month day s h
    unfold assemblePubmedDate assembleDateParts at h
    split at h
    · rename_i hcond
      have hm' : truthy (convertMonth month) = true := by
        have h1 := bool_and_elim hcond
        exact (bool_and_elim h1.1).2
      have hdig := convertMonth_digit month hm'
      cases hmi : pyIntOfStr (getStr (convertMonth month)) with
      | none =>
        cases hdi : pyIntOfStr (getStr day) with
        | none => rw [hmi, hdi] at h; simp at h
        | some d => rw [hmi, hdi] at h; simp at h
      | some m =>
        cases hdi : pyIntOfStr (getStr day) with
        | none => rw [hmi, hdi] at h; simp at h
        | some d =>
          rw [hmi, hdi] at h
          simp only [Except.ok.injEq] at h
          obtain ⟨hml, hma⟩ := formatInt2_parsed_digits hdig hmi
          exact Or.inr (Or.inr (Or.inr ⟨formatInt2 m, formatInt2 d, hml, hma,
            intField_formatInt2 d, h.symm⟩))
    · split at h
      · rename_i hcond2
        have hm' : truthy (convertMonth month) = true := (bool_and_elim hcond2).2
        have hdig := convertMonth_digit month hm'
        cases hmi : pyIntOfStr (getStr (convertMonth month)) with
        | none => rw [hmi] at h; simp at h
        | some m =>
          rw [hmi] at h
          simp only [Except.ok.injEq] at h
          obtain ⟨hml, hma⟩ := formatInt2_parsed_digits hdig hmi
          exact Or.inr (Or.inr (Or.inl ⟨formatInt2 m, hml, hma, h.symm⟩))
      · split at h
        · simp only [Except.ok.injEq] at h
          exact Or.inr (Or.inl h.symm)
        · simp only [Except.ok.injEq] at h
          exact Or.inl h.symm

/-- Witness for the amended C6: the unparseable month token `Flurp` with a day
present falls back to the year-only string without raising. -/
theorem pubmed_date_assembly_witness :
    assemblePubmedDate (some (pystr "2024")) (some (pystr "Flurp")) (some (pystr "7"))
      = .ok (pystr "2024") :=
  pubmed_date_assembly.1 (some (pystr "2024")) (some (pystr "7")) (pystr "Flurp")
    (by decide) (by decide) (by decide)

/-- All (position, word) pairs of an inverted index, in iteration order of the
double loop `for word, idxs in index.items(): for idx in idxs`. -/
def allPairs (idx : List (Str × List Int)) : List (Int × Str) :=
  idx.flatMap (fun wi => wi.2.map (fun p => (p, wi.1)))

/-- One dict assignment `positions[idx] = word` on an insertion-ordered
association list: overwrite in place, or append when the key is new. -/
def updatePositions (m : List (Int × Str)) (p : Int) (w : Str) : List (Int × Str) :=
  if m.any (fun e => decide (e.1 = p)) then
    m.map (fun e => if e.1 = p then (p, w) else e)
  else m ++ [(p, w)]

/-- The `positions` dict built by the double loop of `decode_openalex_abstract`. -/
def buildPositions (idx : List (Str × List Int)) : List (Int × Str) :=
  idx.foldl (fun m wi => wi.2.foldl (fun acc p => updatePositions acc p wi.1) m) []

/-- Dict lookup `positions[i]`, total with an empty-word default (every lookup
the program performs is for a present key). -/
def lookupPos (m : List (Int × Str)) (p : Int) : Str :=
  match m.find? (fun e => decide (e.1 = p)) with
  | some e => e.2
  | none => []

/-- Models `decode_openalex_abstract` (lines 310-318): a falsy index (absent or
empty dict) yields the empty string; otherwise build the positions dict, sort
its keys ascending (`sorted(positions)`, modelled by insertion sort — the dict
keys are distinct, so any sort yields the same ascending enumeration), look
each key up, and join the words with single spaces. -/
def decode_openalex_abstract (index : Option (List (Str × List Int))) : Str :=
  match index with
  | none => []
  | some idx =>
    if idx = [] then []
    else
      spaceJoin (((buildPositions idx).map Prod.fst).insertionSort (fun a b => a ≤ b)
        |>.map (lookupPos (buildPositions idx)))

/-- Ordering of (position, word) pairs by position. -/
def pairLE (a b : Int × Str) : Prop := a.1 ≤ b.1

instance : DecidableRel pairLE := fun a b => Int.decLe a.1 b.1

instance : IsTotal (Int × Str) pairLE := ⟨fun a b => Int.le_total a.1 b.1⟩

instance : IsTrans (Int × Str) pairLE := ⟨fun _ _ _ h1 h2 => le_trans h1 h2⟩

instance : IsAntisymm Int (fun a b : Int => a ≤ b) := ⟨fun _ _ h1 h2 => le_antisymm h1 h2⟩

instance : IsTotal Int (fun a b : Int => a ≤ b) := ⟨fun a b => Int.le_total a b⟩

instance : IsTrans Int (fun a b : Int => a ≤ b) := ⟨fun _ _ _ h1 h2 => le_trans h1 h2⟩

theorem buildPositions_eq_foldl (idx : List (Str × List Int)) :
    ∀ m : List (Int × Str),
      idx.foldl (fun m wi => wi.2.foldl (fun acc p => updatePositions acc p wi.1) m) m
        = (allPairs idx).foldl (fun acc pw => updatePositions acc pw.1 pw.2) m := by
  induction idx with
  | nil => intro m; rfl
  | cons wi idx ih =>
    intro m
    simp only [List.foldl_cons, allPairs, List.flatMap_cons, List.foldl_append]
    rw [ih, List.foldl_map]
    rfl

theorem foldl_update_fresh :
    ∀ (pairs m : List (Int × Str)),
      (pairs.map Prod.fst).Nodup →
      (∀ q ∈ pairs, ∀ e ∈ m, e.1 ≠ q.1) →
      pairs.foldl (fun acc pw => updatePositions acc pw.1 pw.2) m = m ++ pairs := by
  intro pairs
  induction pairs with
  | nil => intro m _ _; simp
  | cons q pairs ih =>
    intro m hnd hfresh
    have hnd' : (∀ x : Str, (q.1, x) ∉ pairs) ∧ (pairs.map Prod.fst).Nodup := by
      simpa using hnd
    have hany : m.any (fun e => decide (e.1 = q.1)) = false := by
      rw [List.any_eq_false]
      intro e he
      simpa using hfresh q (List.mem_cons_self _ _) e he
    simp only [List.foldl_cons]
    have hupd : updatePositions m q.1 q.2 = m ++ [q] := by
      unfold updatePositions
      rw [hany]
      simp
    rw [hupd, ih (m ++ [q]) hnd'.2]
    · simp
    · intro q' hq' e he
      rcases List.mem_append.mp he with h1 | h2
      · exact hfresh q' (List.mem_cons_of_mem _ hq') e h1
      · simp only [List.mem_singleton] at h2
        subst h2
        intro hc
        apply hnd'.1 q'.2
        have hq'eq : (e.1, q'.2) = q' := by rw [hc]
        rw [hq'eq]
        exact hq'

theorem lookupPos_of_mem :
    ∀ m : List (Int × Str), (m.map Prod.fst).Nodup →
      ∀ e ∈ m, lookupPos m e.1 = e.2 := by
  intro m
  induction m with
  | nil => intro _ e he; exact absurd he (List.not_mem_nil e)
  | cons a m ih =>
    intro hnd e he
    have hnd' : (∀ x : Str, (a.1, x) ∉ m) ∧ (m.map Prod.fst).Nodup := by
      simpa using hnd
    rcases List.mem_cons.mp he with h1 | h2
    · subst h1
      unfold lookupPos
      rw [List.find?_cons_of_pos _ (by simp)]
    · have hne : ¬(a.1 = e.1) := by
        intro hc
        apply hnd'.1 e.2
        have heq : (a.1, e.2) = e := by rw [hc]
        rw [heq]
        exact h2
      unfold lookupPos
      rw [List.find?_cons_of_neg _ (by simpa using hne)]
      exact ih hnd'.2 e h2

theorem sorted_lookup_eq (m : List (Int × Str)) (hnd : (m.map Prod.fst).Nodup) :
    ((m.map Prod.fst).insertionSort (fun a b => a ≤ b)).map (lookupPos m)
      = (m.insertionSort pairLE).map Prod.snd := by
  have hfst : (m.insertionSort pairLE).map Prod.fst
      = (m.map Prod.fst).insertionSort (fun a b => a ≤ b) := by
    have hperm : ((m.insertionSort pairLE).map Prod.fst).Perm
        ((m.map Prod.fst).insertionSort (fun a b => a ≤ b)) :=
      (List.Perm.map Prod.fst (List.perm_insertionSort pairLE m)).trans
        (List.perm_insertionSort _ _).symm
    have hs1 : List.Sorted (fun a b : Int => a ≤ b)
        ((m.insertionSort pairLE).map Prod.fst) :=
      List.Pairwise.map Prod.fst (fun a b h => h) (List.sorted_insertionSort pairLE m)
    have hs2 : List.Sorted (fun a b : Int => a ≤ b)
        ((m.map Prod.fst).insertionSort (fun a b => a ≤ b)) :=
      List.sorted_insertionSort _ _
    exact List.eq_of_perm_of_sorted hperm hs1 hs2
  rw [← hfst, List.map_map]
  apply List.map_congr_left
  intro e he
  have hem : e ∈ m := (List.perm_insertionSort pairLE m).mem_iff.mp he
  exact lookupPos_of_mem m hnd e hem

/-- C7: the inverted-index decoder yields the empty string on an absent
(`None`) or empty mapping; it decodes the example index to
`Deep learning rocks`; and for every index whose positions are pairwise
distinct it returns exactly the words of all (position, word) pairs in
ascending position order, joined by single spaces. -/
theorem decode_inverted_index :
    decode_openalex_abstract none = [] ∧
    decode_openalex_abstract (some []) = [] ∧
    decode_openalex_abstract
        (some [(pystr "Deep", [0]), (pystr "learning", [1]), (pystr "rocks", [2])])
      = pystr "Deep learning rocks" ∧
    (∀ idx : List (Str × List Int), ((allPairs idx).map Prod.fst).Nodup →
      decode_openalex_abstract (some idx)
        = spaceJoin (((allPairs idx).insertionSort pairLE).map Prod.snd)) := by
  refine ⟨rfl, rfl, by rfl, ?_⟩
  intro idx hnd
  by_cases hidx : idx = []
  · subst hidx
    rfl
  · have h0 := foldl_update_fresh (allPairs idx) [] hnd
      (fun q _ e he => absurd he (List.not_mem_nil e))
    have hbuild : buildPositions idx = allPairs idx := by
      unfold buildPositions
      rw [buildPositions_eq_foldl idx [], h0, List.nil_append]
    simp only [decode_openalex_abstract]
    rw [if_neg hidx, hbuild]
    exact congrArg spaceJoin (sorted_lookup_eq (allPairs idx) hnd)

/-- Witness for C7: the general ordering property applied to the example
index, whose positions 0, 1, 2 are pairwise distinct. -/
theorem decode_inverted_index_witness :
    decode_openalex_abstract
        (some [(pystr "Deep", [0]), (pystr "learning", [1]), (pystr "rocks", [2])])
      = spaceJoin (((allPairs
          [(pystr "Deep", [0]), (pystr "learning", [1]), (pystr "rocks", [2])]
        ).insertionSort pairLE).map Prod.snd) :=
  decode_inverted_index.2.2.2 _ (by decide)

/-- The supported source names: the keys of the `fetchers` dict in `main`. -/
def knownSources : List Str := [pystr "pubmed", pystr "crossref", pystr "openalex"]

/-- Outcome of one adapter call: `.error ()` models an exception escaping the
adapter; on error the orchestrator extends the accumulator with nothing. -/
def exceptRecords (r : Except Unit (List PaperRecord)) : List PaperRecord :=
  match r with
  | .ok rs => rs
  | .error _ => []

/-- The fetch loop of `main` (lines 407-418): for each requested source in
order, look the adapter up by lowercased name (`fetchers.get(source.lower())`,
unsupported names are skipped with a warning); for each keyword in order call
the adapter inside try/except, extending `all_records` with its records on
success and with nothing when it raises.  The three HTTP adapters are
abstracted as an oracle from (lowercased source, keyword) to a result. -/
def fetchAll (oracle : Str → Str → Except Unit (List PaperRecord))
    (sources keywords : List Str) : List PaperRecord :=
  sources.foldl (fun acc source =>
    if pyLower source ∈ knownSources then
      keywords.foldl (fun acc2 kw =>
        match oracle (pyLower source) kw with
        | .ok rs => acc2 ++ rs
        | .error _ => acc2) acc
    else acc) []

theorem fetchAll_inner (oracle : Str → Str → Except Unit (List PaperRecord)) (s : Str) :
    ∀ (keywords : List Str) (acc : List PaperRecord),
      keywords.foldl (fun acc2 kw =>
        match oracle s kw with
        | .ok rs => acc2 ++ rs
        | .error _ => acc2) acc
      = acc ++ keywords.flatMap (fun k => exceptRecords (oracle s k)) := by
  intro keywords
  induction keywords with
  | nil => intro acc; simp
  | cons k keywords ih =>
    intro acc
    simp only [List.foldl_cons, List.flatMap_cons]
    have hstep : (match oracle s k with
        | .ok rs => acc ++ rs
        | .error _ => acc) = acc ++ exceptRecords (oracle s k) := by
      cases h : oracle s k <;> simp [exceptRecords]
    rw [hstep, ih, List.append_assoc]

theorem fetchAll_gen (oracle : Str → Str → Except Unit (List PaperRecord))
    (keywords : List Str) :
    ∀ (sources : List Str) (acc : List PaperRecord),
      sources.foldl (fun acc source =>
        if pyLower source ∈ knownSources then
          keywords.foldl (fun acc2 kw =>
            match oracle (pyLower source) kw with
            | .ok rs => acc2 ++ rs
            | .error _ => acc2) acc
        else acc) acc
      = acc ++ (sources.filter (fun s => decide (pyLower s ∈ knownSources))).flatMap
          (fun s => keywords.flatMap (fun k => exceptRecords (oracle (pyLower s) k))) := by
  intro sources
  induction sources with
  | nil => intro acc; simp
  | cons s sources ih =>
    intro acc
    simp only [List.foldl_cons, List.filter_cons]
    by_cases hs : pyLower s ∈ knownSources
    · have hd : decide (pyLower s ∈ knownSources) = true := by simp [hs]
      rw [if_pos hs, hd, if_pos rfl, fetchAll_inner oracle (pyLower s) keywords acc, ih,
        List.flatMap_cons, List.append_assoc]
    · have hd : decide (pyLower s ∈ knownSources) = false := by simp [hs]
      rw [if_neg hs, hd, ih]
      simp

/-- C9: the combined record sequence of the orchestrator is exactly the
source-major, then keyword-major, then per-adapter emission-order
concatenation over the supported sources, with a raising adapter call
contributing zero records while every other pair's records are preserved;
unknown source names are filtered out (skipped with a warning), never
aborting the run. -/
theorem fetch_failure_isolation :
    ∀ (oracle : Str → Str → Except Unit (List PaperRecord)) (sources keywords : List Str),
      fetchAll oracle sources keywords
        = (sources.filter (fun s => decide (pyLower s ∈ knownSources))).flatMap
            (fun s => keywords.flatMap (fun k => exceptRecords (oracle (pyLower s) k))) := by
  intro oracle sources keywords
  unfold fetchAll
  rw [fetchAll_gen oracle keywords sources []]
  exact List.nil_append _

end FetchPapers
